import Mathlib

/-!
# Verification of ROM-Plumes core routines

Shallow embedding of the core numerical routines of the ROM-Plumes
repository (`rom_plumes/utils.py`, `rom_plumes/models.py`, `src/models.py`)
and proofs of the specification claims about them.

Numeric values flowing through the geometry code are modelled by
`FloatV := Option ℝ`: `some x` is an ordinary (real) float value, `none`
stands for a non-real IEEE result (NaN or ±Inf), produced by dividing by
zero or taking the square root of a negative number, and propagated by
every arithmetic operation.  Comparisons against a non-real value are
false, as they are for NaN in NumPy.
-/

namespace RomPlumes

/-- A float value: `some x` is a real value, `none` a non-real one (NaN/Inf). -/
abbrev FloatV := Option ℝ

/-- Float addition; non-real operands propagate. -/
def fadd : FloatV → FloatV → FloatV
  | some a, some b => some (a + b)
  | _, _ => none

/-- Float subtraction; non-real operands propagate. -/
def fsub : FloatV → FloatV → FloatV
  | some a, some b => some (a - b)
  | _, _ => none

/-- Float multiplication; non-real operands propagate. -/
def fmul : FloatV → FloatV → FloatV
  | some a, some b => some (a * b)
  | _, _ => none

/-- Float division: division by zero yields a non-real value (±Inf in IEEE,
collapsed to `none` here); non-real operands propagate. -/
noncomputable def fdiv : FloatV → FloatV → FloatV
  | some a, some b => if b = 0 then none else some (a / b)
  | _, _ => none

/-- `np.sqrt`: the square root of a negative number is NaN (`none`);
non-real operands propagate. -/
noncomputable def fsqrt : FloatV → FloatV
  | some a => if a < 0 then none else some (Real.sqrt a)
  | none => none

/-- Squaring (`x ** 2` in the source). -/
def fpow2 (x : FloatV) : FloatV := fmul x x

/-- NumPy `>=` comparison: false whenever either side is non-real (NaN). -/
def fge : FloatV → FloatV → Prop
  | some a, some b => b ≤ a
  | _, _ => False

/-- NumPy `<=` comparison: false whenever either side is non-real (NaN). -/
def fle : FloatV → FloatV → Prop
  | some a, some b => a ≤ b
  | _, _ => False

@[simp] theorem fadd_some (a b : ℝ) : fadd (some a) (some b) = some (a + b) := rfl

@[simp] theorem fsub_some (a b : ℝ) : fsub (some a) (some b) = some (a - b) := rfl

@[simp] theorem fmul_some (a b : ℝ) : fmul (some a) (some b) = some (a * b) := rfl

@[simp] theorem fpow2_some (a : ℝ) : fpow2 (some a) = some (a * a) := rfl

theorem fdiv_some {b : ℝ} (a : ℝ) (hb : b ≠ 0) :
    fdiv (some a) (some b) = some (a / b) := by
  simp [fdiv, hb]

theorem fdiv_zero (a : ℝ) : fdiv (some a) (some 0) = none := by
  simp [fdiv]

theorem fsqrt_some {a : ℝ} (ha : 0 ≤ a) : fsqrt (some a) = some (Real.sqrt a) := by
  simp [fsqrt, not_lt.mpr ha]

theorem fsqrt_neg {a : ℝ} (ha : a < 0) : fsqrt (some a) = none := by
  simp [fsqrt, ha]

@[simp] theorem fadd_none_left (b : FloatV) : fadd none b = none := rfl

@[simp] theorem fadd_none_right (a : FloatV) : fadd a none = none := by
  cases a <;> rfl

@[simp] theorem fsub_none_left (b : FloatV) : fsub none b = none := rfl

@[simp] theorem fsub_none_right (a : FloatV) : fsub a none = none := by
  cases a <;> rfl

@[simp] theorem fmul_none_left (b : FloatV) : fmul none b = none := rfl

@[simp] theorem fmul_none_right (a : FloatV) : fmul a none = none := by
  cases a <;> rfl

@[simp] theorem fdiv_none_left (b : FloatV) : fdiv none b = none := rfl

@[simp] theorem fdiv_none_right (a : FloatV) : fdiv a none = none := by
  cases a <;> rfl

@[simp] theorem fsqrt_none : fsqrt none = none := rfl

@[simp] theorem fpow2_none : fpow2 none = none := rfl

/-!
## `circle_intersection` (rom_plumes/utils.py, lines 68-89)

```python
d = np.sqrt((x0 - x1) ** 2 + (y0 - y1) ** 2)
L = (r0**2 - r1**2 + d**2) / (2 * d)
h = np.sqrt(r0**2 - L**2)
x3 = L / d * (x1 - x0) - h / d * (y1 - y0) + x0
y3 = L / d * (y1 - y0) + h / d * (x1 - x0) + y0
x4 = L / d * (x1 - x0) + h / d * (y1 - y0) + x0
y4 = L / d * (y1 - y0) - h / d * (x1 - x0) + y0
sol = np.array([[x3, y3], [x4, y4]])
```
-/

/-- Embedding of `circle_intersection` from `rom_plumes/utils.py`.
Returns the pair of candidate intersection points `((x3, y3), (x4, y4))`. -/
noncomputable def circle_intersection (x0 y0 r0 x1 y1 r1 : FloatV) :
    (FloatV × FloatV) × (FloatV × FloatV) :=
  let d := fsqrt (fadd (fpow2 (fsub x0 x1)) (fpow2 (fsub y0 y1)))
  let L := fdiv (fadd (fsub (fpow2 r0) (fpow2 r1)) (fpow2 d)) (fmul (some 2) d)
  let h := fsqrt (fsub (fpow2 r0) (fpow2 L))
  let x3 := fadd (fsub (fmul (fdiv L d) (fsub x1 x0)) (fmul (fdiv h d) (fsub y1 y0))) x0
  let y3 := fadd (fadd (fmul (fdiv L d) (fsub y1 y0)) (fmul (fdiv h d) (fsub x1 x0))) y0
  let x4 := fadd (fadd (fmul (fdiv L d) (fsub x1 x0)) (fmul (fdiv h d) (fsub y1 y0))) x0
  let y4 := fadd (fsub (fmul (fdiv L d) (fsub y1 y0)) (fmul (fdiv h d) (fsub x1 x0))) y0
  ((x3, y3), (x4, y4))

/-- The center distance `d` computed by `circle_intersection`, at the real level. -/
noncomputable def cdist (x0 y0 x1 y1 : ℝ) : ℝ :=
  Real.sqrt ((x0 - x1) ^ 2 + (y0 - y1) ^ 2)

/-- The radical-line offset `L = (r0² - r1² + d²) / (2d)` computed by
`circle_intersection`, at the real level. -/
noncomputable def cL (x0 y0 r0 x1 y1 r1 : ℝ) : ℝ :=
  (r0 ^ 2 - r1 ^ 2 + cdist x0 y0 x1 y1 ^ 2) / (2 * cdist x0 y0 x1 y1)

theorem cdist_nonneg (x0 y0 x1 y1 : ℝ) : 0 ≤ cdist x0 y0 x1 y1 :=
  Real.sqrt_nonneg _

theorem cdist_sq (x0 y0 x1 y1 : ℝ) :
    cdist x0 y0 x1 y1 ^ 2 = (x0 - x1) ^ 2 + (y0 - y1) ^ 2 :=
  Real.sq_sqrt (by positivity)

/-- On real inputs with a positive center distance, `circle_intersection`
reduces to the radical-line formulas, with `d = cdist`, `L = cL` and
`h = fsqrt (r0² - L²)` still symbolic. -/
theorem circle_intersection_pos_d (x0 y0 r0 x1 y1 r1 : ℝ)
    (hd : 0 < cdist x0 y0 x1 y1) :
    circle_intersection (some x0) (some y0) (some r0) (some x1) (some y1) (some r1) =
      ((fadd (fsub (fmul (some (cL x0 y0 r0 x1 y1 r1 / cdist x0 y0 x1 y1)) (some (x1 - x0)))
          (fmul (fdiv (fsqrt (some (r0 ^ 2 - cL x0 y0 r0 x1 y1 r1 ^ 2)))
            (some (cdist x0 y0 x1 y1))) (some (y1 - y0)))) (some x0),
        fadd (fadd (fmul (some (cL x0 y0 r0 x1 y1 r1 / cdist x0 y0 x1 y1)) (some (y1 - y0)))
          (fmul (fdiv (fsqrt (some (r0 ^ 2 - cL x0 y0 r0 x1 y1 r1 ^ 2)))
            (some (cdist x0 y0 x1 y1))) (some (x1 - x0)))) (some y0)),
       (fadd (fadd (fmul (some (cL x0 y0 r0 x1 y1 r1 / cdist x0 y0 x1 y1)) (some (x1 - x0)))
          (fmul (fdiv (fsqrt (some (r0 ^ 2 - cL x0 y0 r0 x1 y1 r1 ^ 2)))
            (some (cdist x0 y0 x1 y1))) (some (y1 - y0)))) (some x0),
        fadd (fsub (fmul (some (cL x0 y0 r0 x1 y1 r1 / cdist x0 y0 x1 y1)) (some (y1 - y0)))
          (fmul (fdiv (fsqrt (some (r0 ^ 2 - cL x0 y0 r0 x1 y1 r1 ^ 2)))
            (some (cdist x0 y0 x1 y1))) (some (x1 - x0)))) (some y0))) := by
  have hdne : cdist x0 y0 x1 y1 ≠ 0 := ne_of_gt hd
  have hdcalc :
      fsqrt (fadd (fpow2 (fsub (some x0) (some x1))) (fpow2 (fsub (some y0) (some y1)))) =
        some (cdist x0 y0 x1 y1) := by
    simp only [fsub_some, fpow2_some, fadd_some]
    rw [fsqrt_some (add_nonneg (mul_self_nonneg _) (mul_self_nonneg _))]
    congr 1
    rw [cdist]
    congr 1
    ring
  have hLcalc :
      fdiv (fadd (fsub (fpow2 (some r0)) (fpow2 (some r1))) (fpow2 (some (cdist x0 y0 x1 y1))))
          (fmul (some 2) (some (cdist x0 y0 x1 y1))) =
        some (cL x0 y0 r0 x1 y1 r1) := by
    simp only [fpow2_some, fsub_some, fadd_some, fmul_some]
    rw [fdiv_some _ (mul_ne_zero two_ne_zero hdne)]
    congr 1
    rw [cL]
    ring
  have hh :
      fsub (fpow2 (some r0)) (fpow2 (some (cL x0 y0 r0 x1 y1 r1))) =
        some (r0 ^ 2 - cL x0 y0 r0 x1 y1 r1 ^ 2) := by
    simp only [fpow2_some, fsub_some]
    congr 1
    ring
  have hLd :
      fdiv (some (cL x0 y0 r0 x1 y1 r1)) (some (cdist x0 y0 x1 y1)) =
        some (cL x0 y0 r0 x1 y1 r1 / cdist x0 y0 x1 y1) := fdiv_some _ hdne
  simp only [circle_intersection]
  rw [hdcalc, hLcalc, hh, hLd]
  simp only [fsub_some]

/-- Pure algebra behind the radical-line construction: given `d ≠ 0` with
`d² = a² + b²`, `L·(2d) = r0² - r1² + d²` and `h² = r0² - L²`, the two
constructed points have squared distance `r0²` to the first center and
`r1²` to the second. -/
theorem radical_line_alg (a b dr Lr hr r0 r1 : ℝ) (hdr : dr ≠ 0)
    (hS : dr ^ 2 = a ^ 2 + b ^ 2)
    (hLr : Lr * (2 * dr) = r0 ^ 2 - r1 ^ 2 + dr ^ 2)
    (hhr : hr ^ 2 = r0 ^ 2 - Lr ^ 2) :
    (Lr / dr * a - hr / dr * b) ^ 2 + (Lr / dr * b + hr / dr * a) ^ 2 = r0 ^ 2 ∧
    (Lr / dr * a - hr / dr * b - a) ^ 2 + (Lr / dr * b + hr / dr * a - b) ^ 2 = r1 ^ 2 ∧
    (Lr / dr * a + hr / dr * b) ^ 2 + (Lr / dr * b - hr / dr * a) ^ 2 = r0 ^ 2 ∧
    (Lr / dr * a + hr / dr * b - a) ^ 2 + (Lr / dr * b - hr / dr * a - b) ^ 2 = r1 ^ 2 := by
  have h1 : (Lr / dr * a - hr / dr * b) ^ 2 + (Lr / dr * b + hr / dr * a) ^ 2 = r0 ^ 2 := by
    field_simp
    linear_combination (a ^ 2 + b ^ 2) * hhr - r0 ^ 2 * hS
  have h2 : (Lr / dr * a - hr / dr * b - a) ^ 2 + (Lr / dr * b + hr / dr * a - b) ^ 2
      = r1 ^ 2 := by
    field_simp
    linear_combination (a ^ 2 + b ^ 2) * hhr - (a ^ 2 + b ^ 2) * hLr - r1 ^ 2 * hS
  have h3 : (Lr / dr * a + hr / dr * b) ^ 2 + (Lr / dr * b - hr / dr * a) ^ 2 = r0 ^ 2 := by
    field_simp
    linear_combination (a ^ 2 + b ^ 2) * hhr - r0 ^ 2 * hS
  have h4 : (Lr / dr * a + hr / dr * b - a) ^ 2 + (Lr / dr * b - hr / dr * a - b) ^ 2
      = r1 ^ 2 := by
    field_simp
    linear_combination (a ^ 2 + b ^ 2) * hhr - (a ^ 2 + b ^ 2) * hLr - r1 ^ 2 * hS
  exact ⟨h1, h2, h3, h4⟩

/-- C1: for circles with centers `(x0,y0)`, `(x1,y1)` and radii `r0, r1 ≥ 0`,
if the center distance `d` is positive and `r0² ≥ L²` for the radical-line
offset `L = (r0² - r1² + d²)/(2d)`, then `circle_intersection` returns two
real points, each at distance `r0` from `(x0,y0)` and at distance `r1` from
`(x1,y1)`.  (The radii of a pair of circles are nonnegative by definition;
this is recorded by the hypotheses `hr0`, `hr1`.) -/
theorem circle_intersection_on_both_circles (x0 y0 r0 x1 y1 r1 : ℝ)
    (hr0 : 0 ≤ r0) (hr1 : 0 ≤ r1) (hd : 0 < cdist x0 y0 x1 y1)
    (hL : cL x0 y0 r0 x1 y1 r1 ^ 2 ≤ r0 ^ 2) :
    ∃ a3 b3 a4 b4 : ℝ,
      circle_intersection (some x0) (some y0) (some r0) (some x1) (some y1) (some r1) =
        ((some a3, some b3), (some a4, some b4)) ∧
      Real.sqrt ((a3 - x0) ^ 2 + (b3 - y0) ^ 2) = r0 ∧
      Real.sqrt ((a3 - x1) ^ 2 + (b3 - y1) ^ 2) = r1 ∧
      Real.sqrt ((a4 - x0) ^ 2 + (b4 - y0) ^ 2) = r0 ∧
      Real.sqrt ((a4 - x1) ^ 2 + (b4 - y1) ^ 2) = r1 := by
  set dr := cdist x0 y0 x1 y1 with hdr_def
  set Lr := cL x0 y0 r0 x1 y1 r1 with hLr_def
  have hdne : dr ≠ 0 := ne_of_gt hd
  have hnonneg : 0 ≤ r0 ^ 2 - Lr ^ 2 := by linarith
  set hr := Real.sqrt (r0 ^ 2 - Lr ^ 2) with hhr_def
  have hhsq : hr ^ 2 = r0 ^ 2 - Lr ^ 2 := Real.sq_sqrt hnonneg
  have hS : dr ^ 2 = (x1 - x0) ^ 2 + (y1 - y0) ^ 2 := by
    rw [hdr_def, cdist_sq]; ring
  have hLreq : Lr * (2 * dr) = r0 ^ 2 - r1 ^ 2 + dr ^ 2 := by
    rw [hLr_def, cL, ← hdr_def]
    field_simp
  obtain ⟨e1, e2, e3, e4⟩ :=
    radical_line_alg (x1 - x0) (y1 - y0) dr Lr hr r0 r1 hdne hS hLreq hhsq
  refine ⟨Lr / dr * (x1 - x0) - hr / dr * (y1 - y0) + x0,
          Lr / dr * (y1 - y0) + hr / dr * (x1 - x0) + y0,
          Lr / dr * (x1 - x0) + hr / dr * (y1 - y0) + x0,
          Lr / dr * (y1 - y0) - hr / dr * (x1 - x0) + y0, ?_, ?_, ?_, ?_, ?_⟩
  · rw [circle_intersection_pos_d x0 y0 r0 x1 y1 r1 hd, ← hdr_def, ← hLr_def]
    rw [fsqrt_some hnonneg, ← hhr_def, fdiv_some _ hdne]
    simp only [fmul_some, fsub_some, fadd_some]
  · rw [show Lr / dr * (x1 - x0) - hr / dr * (y1 - y0) + x0 - x0
        = Lr / dr * (x1 - x0) - hr / dr * (y1 - y0) by ring,
        show Lr / dr * (y1 - y0) + hr / dr * (x1 - x0) + y0 - y0
        = Lr / dr * (y1 - y0) + hr / dr * (x1 - x0) by ring, e1, Real.sqrt_sq hr0]
  · rw [show Lr / dr * (x1 - x0) - hr / dr * (y1 - y0) + x0 - x1
        = Lr / dr * (x1 - x0) - hr / dr * (y1 - y0) - (x1 - x0) by ring,
        show Lr / dr * (y1 - y0) + hr / dr * (x1 - x0) + y0 - y1
        = Lr / dr * (y1 - y0) + hr / dr * (x1 - x0) - (y1 - y0) by ring, e2,
        Real.sqrt_sq hr1]
  · rw [show Lr / dr * (x1 - x0) + hr / dr * (y1 - y0) + x0 - x0
        = Lr / dr * (x1 - x0) + hr / dr * (y1 - y0) by ring,
        show Lr / dr * (y1 - y0) - hr / dr * (x1 - x0) + y0 - y0
        = Lr / dr * (y1 - y0) - hr / dr * (x1 - x0) by ring, e3, Real.sqrt_sq hr0]
  · rw [show Lr / dr * (x1 - x0) + hr / dr * (y1 - y0) + x0 - x1
        = Lr / dr * (x1 - x0) + hr / dr * (y1 - y0) - (x1 - x0) by ring,
        show Lr / dr * (y1 - y0) - hr / dr * (x1 - x0) + y0 - y1
        = Lr / dr * (y1 - y0) - hr / dr * (x1 - x0) - (y1 - y0) by ring, e4,
        Real.sqrt_sq hr1]

theorem sqrt_four : Real.sqrt 4 = 2 := by
  rw [show (4 : ℝ) = 2 ^ 2 by norm_num, Real.sqrt_sq (by norm_num)]

theorem sqrt_twentyfive : Real.sqrt 25 = 5 := by
  rw [show (25 : ℝ) = 5 ^ 2 by norm_num, Real.sqrt_sq (by norm_num)]

/-- Witness for C1: the circles centered `(0,0)` and `(2,0)`, both of radius 2,
satisfy the hypotheses, and the theorem applies. -/
theorem circle_intersection_on_both_circles_witness :
    (0 : ℝ) ≤ 2 ∧ 0 < cdist 0 0 2 0 ∧ cL 0 0 2 2 0 2 ^ 2 ≤ (2 : ℝ) ^ 2 ∧
    (∃ a3 b3 a4 b4 : ℝ,
      circle_intersection (some 0) (some 0) (some 2) (some 2) (some 0) (some 2) =
        ((some a3, some b3), (some a4, some b4)) ∧
      Real.sqrt ((a3 - 0) ^ 2 + (b3 - 0) ^ 2) = 2 ∧
      Real.sqrt ((a3 - 2) ^ 2 + (b3 - 0) ^ 2) = 2 ∧
      Real.sqrt ((a4 - 0) ^ 2 + (b4 - 0) ^ 2) = 2 ∧
      Real.sqrt ((a4 - 2) ^ 2 + (b4 - 0) ^ 2) = 2) := by
  have hdist : cdist 0 0 2 0 = 2 := by
    rw [cdist]; norm_num [sqrt_four]
  have hd : 0 < cdist 0 0 2 0 := by rw [hdist]; norm_num
  have hL : cL 0 0 2 2 0 2 ^ 2 ≤ (2 : ℝ) ^ 2 := by
    rw [cL, hdist]; norm_num
  exact ⟨by norm_num, hd, hL,
    circle_intersection_on_both_circles 0 0 2 2 0 2 (by norm_num) (by norm_num) hd hL⟩

/-- C4: on degenerate inputs, `circle_intersection` yields no valid real
point: for concentric centers every returned coordinate is non-real
(division by `d = 0`), and for `d > 0` with `r0² < L²` every returned
coordinate is non-real (square root of a negative number), so the result is
propagated as "no solution" rather than a clamped real point. -/
theorem circle_intersection_degenerate (x0 y0 r0 x1 y1 r1 : ℝ) :
    (x0 = x1 → y0 = y1 →
      circle_intersection (some x0) (some y0) (some r0) (some x1) (some y1) (some r1) =
        ((none, none), (none, none))) ∧
    (0 < cdist x0 y0 x1 y1 → r0 ^ 2 < cL x0 y0 r0 x1 y1 r1 ^ 2 →
      circle_intersection (some x0) (some y0) (some r0) (some x1) (some y1) (some r1) =
        ((none, none), (none, none))) := by
  constructor
  · intro hx hy
    subst hx; subst hy
    have hdcalc :
        fsqrt (fadd (fpow2 (fsub (some x0) (some x0))) (fpow2 (fsub (some y0) (some y0)))) =
          some 0 := by
      simp only [fsub_some, fpow2_some, fadd_some, sub_self, mul_zero, add_zero]
      rw [fsqrt_some le_rfl, Real.sqrt_zero]
    simp only [circle_intersection, hdcalc, fmul_some, mul_zero, fdiv]
    simp
  · intro hd hL
    have hdne : cdist x0 y0 x1 y1 ≠ 0 := ne_of_gt hd
    rw [circle_intersection_pos_d x0 y0 r0 x1 y1 r1 hd]
    rw [fsqrt_neg (by linarith)]
    simp

/-- Witness for C4: concentric unit circles at the origin, and the
non-intersecting pair with centers `(0,0)`, `(3,4)` and radii 1, both yield
the all-non-real result. -/
theorem circle_intersection_degenerate_witness :
    (circle_intersection (some 0) (some 0) (some 1) (some 0) (some 0) (some 1) =
      ((none, none), (none, none))) ∧
    (0 < cdist 0 0 3 4 ∧ (1 : ℝ) ^ 2 < cL 0 0 1 3 4 1 ^ 2 ∧
      circle_intersection (some 0) (some 0) (some 1) (some 3) (some 4) (some 1) =
        ((none, none), (none, none))) := by
  have hdist : cdist 0 0 3 4 = 5 := by
    rw [cdist]; norm_num [sqrt_twentyfive]
  have hd : 0 < cdist 0 0 3 4 := by rw [hdist]; norm_num
  have hL : (1 : ℝ) ^ 2 < cL 0 0 1 3 4 1 ^ 2 := by
    rw [cL, hdist]; norm_num
  exact ⟨(circle_intersection_degenerate 0 0 1 0 0 1).1 rfl rfl,
    hd, hL, (circle_intersection_degenerate 0 0 1 3 4 1).2 hd hL⟩

/-!
## `var_func_on_poly` (rom_plumes/models.py, lines 420-480)

The function class translating the learned variance on the flattened mean
curve back to the cartesian plane.  `poly_func_params` maps a time index to
the mean-polynomial coefficients `(a, b, c)` of that frame.
-/

/-- `np.sin`; NaN propagates. -/
noncomputable def fsin : FloatV → FloatV := Option.map Real.sin

/-- Embedding of the `var_func_on_poly` function object: sinusoid parameters
`(A, w, g, B)`, per-frame mean-polynomial coefficients, and the envelope
side tag (the string attribute `upper_lower_envelope`). -/
structure var_func_on_poly where
  A : ℝ
  w : ℝ
  g : ℝ
  B : ℝ
  poly_func_params : ℕ → ℝ × ℝ × ℝ
  upper_lower_envelope : String

/-- `var_func_on_poly.poly_func`: `y = a·x² + b·x + c` with `(a,b,c)` the
frame-`t` coefficients. -/
def poly_func (m : var_func_on_poly) (t : ℕ) (x : FloatV) : FloatV :=
  fadd (fadd (fmul (some (m.poly_func_params t).1) (fpow2 x))
    (fmul (some (m.poly_func_params t).2.1) x)) (some (m.poly_func_params t).2.2)

/-- `var_func_on_poly.sinusoid_func`: `d = A·sin(w·r - g·t) + B·r`. -/
noncomputable def sinusoid_func (m : var_func_on_poly) (t : ℕ) (r : FloatV) : FloatV :=
  fadd (fmul (some m.A) (fsin (fsub (fmul (some m.w) r) (fmul (some m.g) (some (t : ℝ))))))
    (fmul (some m.B) r)

/-- The flattened radius computed by `eval_x`:
`r = ‖(0,0) - (x, poly_func(t,x))‖` (the origin is translated to `(0,0)`). -/
noncomputable def flat_radius (m : var_func_on_poly) (t : ℕ) (x : ℝ) : FloatV :=
  fsqrt (fadd (fpow2 (fsub (some 0) (some x)))
    (fpow2 (fsub (some 0) (poly_func m t (some x)))))

/-- The two candidate points computed by `eval_x`:
`circle_intersection(x0=0, y0=0, r0=r, x1=x, y1=poly_func(t,x), r1=d)`. -/
noncomputable def eval_sols (m : var_func_on_poly) (t : ℕ) (x : ℝ) :
    (FloatV × FloatV) × (FloatV × FloatV) :=
  circle_intersection (some 0) (some 0) (flat_radius m t x)
    (some x) (poly_func m t (some x)) (sinusoid_func m t (flat_radius m t x))

open Classical in
/-- Embedding of `var_func_on_poly.eval_x`: of the two circle-intersection
candidates, return the first one on the requested side of the mean curve,
or `none` when no candidate qualifies. -/
noncomputable def eval_x (m : var_func_on_poly) (t : ℕ) (x : ℝ) :
    Option (FloatV × FloatV) :=
  let sols := eval_sols m t x
  if m.upper_lower_envelope = "upper" then
    if fge sols.1.2 (poly_func m t sols.1.1) then some sols.1
    else if fge sols.2.2 (poly_func m t sols.2.1) then some sols.2
    else none
  else if m.upper_lower_envelope = "lower" then
    if fle sols.1.2 (poly_func m t sols.1.1) then some sols.1
    else if fle sols.2.2 (poly_func m t sols.2.1) then some sols.2
    else none
  else none

theorem fge_iff (a b : FloatV) :
    fge a b ↔ ∃ ar br : ℝ, a = some ar ∧ b = some br ∧ br ≤ ar := by
  cases a <;> cases b <;> simp [fge]

theorem fle_iff (a b : FloatV) :
    fle a b ↔ ∃ ar br : ℝ, a = some ar ∧ b = some br ∧ ar ≤ br := by
  cases a <;> cases b <;> simp [fle]

@[simp] theorem poly_func_none (m : var_func_on_poly) (t : ℕ) :
    poly_func m t none = none := rfl

theorem poly_func_some (m : var_func_on_poly) (t : ℕ) (v : ℝ) :
    poly_func m t (some v) =
      some ((m.poly_func_params t).1 * (v * v) + (m.poly_func_params t).2.1 * v +
        (m.poly_func_params t).2.2) := rfl

/-- C2: whenever `eval_x` returns a point, that point is real and lies on the
requested side of the mean curve (`y ≥ poly_func(t,x)` for the `"upper"`
envelope, `y ≤ poly_func(t,x)` for `"lower"`); if neither circle-intersection
candidate satisfies the side predicate, `eval_x` returns `none`; and the
radius used is `r = ‖(0,0) - (x, poly_func(t,x))‖`. -/
theorem eval_x_envelope (m : var_func_on_poly) (t : ℕ) (x : ℝ) :
    (∀ px py, m.upper_lower_envelope = "upper" → eval_x m t x = some (px, py) →
      ∃ pxr pyr q : ℝ, px = some pxr ∧ py = some pyr ∧
        poly_func m t (some pxr) = some q ∧ q ≤ pyr) ∧
    (∀ px py, m.upper_lower_envelope = "lower" → eval_x m t x = some (px, py) →
      ∃ pxr pyr q : ℝ, px = some pxr ∧ py = some pyr ∧
        poly_func m t (some pxr) = some q ∧ pyr ≤ q) ∧
    (m.upper_lower_envelope = "upper" →
      ¬ fge (eval_sols m t x).1.2 (poly_func m t (eval_sols m t x).1.1) →
      ¬ fge (eval_sols m t x).2.2 (poly_func m t (eval_sols m t x).2.1) →
      eval_x m t x = none) ∧
    (m.upper_lower_envelope = "lower" →
      ¬ fle (eval_sols m t x).1.2 (poly_func m t (eval_sols m t x).1.1) →
      ¬ fle (eval_sols m t x).2.2 (poly_func m t (eval_sols m t x).2.1) →
      eval_x m t x = none) ∧
    (flat_radius m t x = fsqrt (fadd (fpow2 (fsub (some 0) (some x)))
      (fpow2 (fsub (some 0) (poly_func m t (some x)))))) := by
  refine ⟨?_, ?_, ?_, ?_, rfl⟩
  · intro px py henv heval
    rw [eval_x, if_pos henv] at heval
    have hside : fge py (poly_func m t px) := by
      split_ifs at heval with h1 h2
      · obtain ⟨hx, hy⟩ := Prod.mk.injEq _ _ _ _ ▸ Option.some.injEq _ _ ▸ heval
        exact hx ▸ hy ▸ h1
      · obtain ⟨hx, hy⟩ := Prod.mk.injEq _ _ _ _ ▸ Option.some.injEq _ _ ▸ heval
        exact hx ▸ hy ▸ h2
    obtain ⟨pyr, qv, hpy, hq, hle⟩ := (fge_iff _ _).mp hside
    obtain ⟨pxr, hpx⟩ : ∃ pxr, px = some pxr := by
      cases hpx : px with
      | none => rw [hpx, poly_func_none] at hq; exact absurd hq (by simp)
      | some v => exact ⟨v, rfl⟩
    exact ⟨pxr, pyr, qv, hpx, hpy, hpx ▸ hq, hle⟩
  · intro px py henv heval
    have hne : m.upper_lower_envelope ≠ "upper" := by rw [henv]; decide
    rw [eval_x, if_neg hne, if_pos henv] at heval
    have hside : fle py (poly_func m t px) := by
      split_ifs at heval with h1 h2
      · obtain ⟨hx, hy⟩ := Prod.mk.injEq _ _ _ _ ▸ Option.some.injEq _ _ ▸ heval
        exact hx ▸ hy ▸ h1
      · obtain ⟨hx, hy⟩ := Prod.mk.injEq _ _ _ _ ▸ Option.some.injEq _ _ ▸ heval
        exact hx ▸ hy ▸ h2
    obtain ⟨pyr, qv, hpy, hq, hle⟩ := (fle_iff _ _).mp hside
    obtain ⟨pxr, hpx⟩ : ∃ pxr, px = some pxr := by
      cases hpx : px with
      | none => rw [hpx, poly_func_none] at hq; exact absurd hq (by simp)
      | some v => exact ⟨v, rfl⟩
    exact ⟨pxr, pyr, qv, hpx, hpy, hpx ▸ hq, hle⟩
  · intro henv h1 h2
    rw [eval_x, if_pos henv, if_neg h1, if_neg h2]
  · intro henv h1 h2
    have hne : m.upper_lower_envelope ≠ "upper" := by rw [henv]; decide
    rw [eval_x, if_neg hne, if_pos henv, if_neg h1, if_neg h2]

/-- Concrete model for the C2 witness: `A = 0`, `B = 1`, constant-zero mean
polynomial, upper envelope. -/
noncomputable def envWitnessModel : var_func_on_poly :=
  ⟨0, 0, 0, 1, fun _ => (0, 0, 0), "upper"⟩

/-- Witness for C2: on the model above at `t = 0`, `x = 1`, `eval_x` returns
the point `(1/2, √(3/4))`, which lies on the upper side of the mean curve. -/
theorem eval_x_envelope_witness :
    envWitnessModel.upper_lower_envelope = "upper" ∧
    eval_x envWitnessModel 0 1 = some (some (1 / 2), some (Real.sqrt (3 / 4))) ∧
    ∃ pxr pyr q : ℝ, (some (1 / 2) : FloatV) = some pxr ∧
      (some (Real.sqrt (3 / 4)) : FloatV) = some pyr ∧
      poly_func envWitnessModel 0 (some pxr) = some q ∧ q ≤ pyr := by
  have hpoly : ∀ v : ℝ, poly_func envWitnessModel 0 (some v) = some 0 := by
    intro v
    rw [poly_func_some]
    norm_num [envWitnessModel]
  have hr : flat_radius envWitnessModel 0 1 = some 1 := by
    rw [flat_radius, hpoly 1]
    simp only [fsub_some, fpow2_some, fadd_some]
    rw [show ((0 : ℝ) - 1) * ((0 : ℝ) - 1) + ((0 : ℝ) - 0) * ((0 : ℝ) - 0) = 1 by norm_num]
    rw [fsqrt_some (by norm_num), Real.sqrt_one]
  have hsin : sinusoid_func envWitnessModel 0 (some 1) = some 1 := by
    rw [sinusoid_func]
    simp only [envWitnessModel, fmul_some, fsub_some, fsin, Option.map_some', fadd_some]
    norm_num
  have hdist : cdist 0 0 1 0 = 1 := by
    rw [cdist]
    norm_num [Real.sqrt_one]
  have hL : cL 0 0 1 1 0 1 = 1 / 2 := by
    rw [cL, hdist]
    norm_num
  have hsols : eval_sols envWitnessModel 0 1 =
      ((some (1 / 2), some (Real.sqrt (3 / 4))),
       (some (1 / 2), some (-Real.sqrt (3 / 4)))) := by
    rw [eval_sols, hr, hpoly 1, hsin]
    rw [circle_intersection_pos_d 0 0 1 1 0 1 (by rw [hdist]; norm_num)]
    rw [hL, hdist]
    rw [show (1 : ℝ) ^ 2 - (1 / 2 : ℝ) ^ 2 = 3 / 4 by norm_num]
    rw [fsqrt_some (by norm_num), fdiv_some _ one_ne_zero]
    simp only [fmul_some, fsub_some, fadd_some]
    norm_num
  have hfge : fge (some (Real.sqrt (3 / 4))) (poly_func envWitnessModel 0 (some (1 / 2))) := by
    rw [hpoly (1 / 2)]
    exact (fge_iff _ _).mpr ⟨Real.sqrt (3 / 4), 0, rfl, rfl, Real.sqrt_nonneg _⟩
  have heval : eval_x envWitnessModel 0 1 =
      some (some (1 / 2), some (Real.sqrt (3 / 4))) := by
    rw [eval_x, hsols]
    rw [if_pos (show envWitnessModel.upper_lower_envelope = "upper" from rfl)]
    rw [if_pos hfge]
  exact ⟨rfl, heval,
    (eval_x_envelope envWitnessModel 0 1).1 (some (1 / 2)) (some (Real.sqrt (3 / 4)))
      rfl heval⟩

/-!
## `PLUME.regress_multiframe_mean` (rom_plumes/models.py, lines 209-274)

The per-frame fitter `regress_frame_mean` lives in `rom_plumes/regressions.py`,
which is not part of the sources here; the batch loop is therefore
parameterized over an arbitrary fitter with the same interface
(`Except.error` standing for `np.linalg.LinAlgError`).

NumPy aliasing is made observable: the loop returns, besides the coefficient
rows (`none` entries standing for NaN) and the warned frame indices, the
caller's list of point arrays as it stands after the call.  `np.copy`
allocates a fresh buffer, so the in-place `-= decenter` touches only the
copy; had the code subtracted in place on the input array, the third
component would show the subtracted values instead.
-/

/-- One `PlumePoints` row `(r, x, y)`. -/
structure PlumePt where
  r : ℝ
  x : ℝ
  y : ℝ

/-- A frame's `PlumePoints` array. -/
abbrev PlumePts := List PlumePt

/-- `np.copy`: a fresh buffer holding the same values. -/
def npCopy (a : PlumePts) : PlumePts := a

/-- The effect of `frame_points[:, 1:] -= decenter` on one row. -/
def subDecenter (d : ℝ × ℝ) (p : PlumePt) : PlumePt := ⟨p.r, p.x - d.1, p.y - d.2⟩

/-- The per-mode coefficient count (models.py lines 250-255). -/
def n_coef (regression_method : String) (poly_deg : ℕ) : ℕ :=
  if regression_method = "poly_para" then 2 * (poly_deg + 1)
  else if regression_method = "linear" then 2
  else poly_deg + 1

/-- Interface of `regress_frame_mean(frame_points, regression_method,
poly_deg, direction)`; `Except.error ()` is a raised `np.linalg.LinAlgError`. -/
abbrev Fitter := PlumePts → String → ℕ → String → Except Unit (List ℝ)

/-- Tests whether a fit raised a linear-algebra error. -/
def isLinAlgError (e : Except Unit (List ℝ)) : Bool :=
  match e with
  | .error _ => true
  | .ok _ => false

/-- `frame_points = np.copy(frame_points)` followed by the optional
`frame_points[:, 1:] -= decenter`. -/
def applyDecenter (dec : Option (ℝ × ℝ)) (arr : PlumePts) : PlumePts :=
  match dec with
  | some dv => (npCopy arr).map (subDecenter dv)
  | none => npCopy arr

/-- The row stored for one frame: the fitted coefficients, or a NaN row of
the mode's width when the fit raised a linear-algebra error. -/
def frameResult (f : Fitter) (method : String) (deg : ℕ) (direction : String)
    (dec : Option (ℝ × ℝ)) (arr : PlumePts) : List FloatV :=
  match f (applyDecenter dec arr) method deg direction with
  | .ok v => v.map some
  | .error _ => List.replicate (n_coef method deg) none

/-- The `for i, (_, frame_points) in enumerate(mean_points)` loop of
`regress_multiframe_mean`, with running index `i`.  Returns the coefficient
rows, the warned frame indices, and the caller-visible input arrays after
the call. -/
def rmLoop (f : Fitter) (method : String) (deg : ℕ) (direction : String)
    (dec : Option (ℝ × ℝ)) :
    ℕ → List (ℕ × PlumePts) → List (List FloatV) × List ℕ × List (ℕ × PlumePts)
  | _, [] => ([], [], [])
  | i, (fr, arr) :: rest =>
    let fp := applyDecenter dec arr
    let res := rmLoop f method deg direction dec (i + 1) rest
    match f fp method deg direction with
    | .ok v => (v.map some :: res.1, res.2.1, (fr, arr) :: res.2.2)
    | .error _ =>
      (List.replicate (n_coef method deg) none :: res.1, i :: res.2.1,
        (fr, arr) :: res.2.2)

/-- Embedding of `PLUME.regress_multiframe_mean`. -/
def regress_multiframe_mean (f : Fitter) (mean_points : List (ℕ × PlumePts))
    (method : String) (deg : ℕ) (direction : String) (dec : Option (ℝ × ℝ)) :
    List (List FloatV) × List ℕ × List (ℕ × PlumePts) :=
  rmLoop f method deg direction dec 0 mean_points

theorem rmLoop_rows (f : Fitter) (method : String) (deg : ℕ) (direction : String)
    (dec : Option (ℝ × ℝ)) (i : ℕ) (l : List (ℕ × PlumePts)) :
    (rmLoop f method deg direction dec i l).1 =
      l.map (fun pr => frameResult f method deg direction dec pr.2) := by
  induction l generalizing i with
  | nil => rfl
  | cons hd tl ih =>
    obtain ⟨fr, arr⟩ := hd
    rw [rmLoop, List.map_cons]
    rw [frameResult]
    cases hfit : f (applyDecenter dec arr) method deg direction with
    | ok v => simp only [hfit, ih]
    | error e => simp only [hfit, ih]

theorem rmLoop_warns (f : Fitter) (method : String) (deg : ℕ) (direction : String)
    (dec : Option (ℝ × ℝ)) (i : ℕ) (l : List (ℕ × PlumePts)) :
    (rmLoop f method deg direction dec i l).2.1 =
      ((l.enumFrom i).filter
        (fun p => isLinAlgError (f (applyDecenter dec p.2.2) method deg direction))).map
        Prod.fst := by
  induction l generalizing i with
  | nil => rfl
  | cons hd tl ih =>
    obtain ⟨fr, arr⟩ := hd
    rw [rmLoop, List.enumFrom, List.filter]
    cases hfit : f (applyDecenter dec arr) method deg direction with
    | ok v => simp only [hfit, ih, isLinAlgError]
    | error e => simp only [hfit, ih, isLinAlgError, List.map_cons]

theorem rmLoop_inputs (f : Fitter) (method : String) (deg : ℕ) (direction : String)
    (dec : Option (ℝ × ℝ)) (i : ℕ) (l : List (ℕ × PlumePts)) :
    (rmLoop f method deg direction dec i l).2.2 = l := by
  induction l generalizing i with
  | nil => rfl
  | cons hd tl ih =>
    obtain ⟨fr, arr⟩ := hd
    rw [rmLoop]
    cases hfit : f (applyDecenter dec arr) method deg direction with
    | ok v => simp only [hfit, ih]
    | error e => simp only [hfit, ih]

/-- C3: `regress_multiframe_mean` produces one row per input frame in input
order, each frame fitted independently of every other frame's outcome; a
frame whose fit raises a linear-algebra error gets an all-NaN row of the
mode's coefficient width and its index is emitted as a warning, while all
other frames are still fitted. -/
theorem regress_multiframe_mean_isolates_failures (f : Fitter) (method : String)
    (deg : ℕ) (direction : String) (dec : Option (ℝ × ℝ))
    (mean_points : List (ℕ × PlumePts))
    (hlen : ∀ pts v, f pts method deg direction = .ok v → v.length = n_coef method deg) :
    (regress_multiframe_mean f mean_points method deg direction dec).1 =
      mean_points.map (fun pr => frameResult f method deg direction dec pr.2) ∧
    (∀ row ∈ (regress_multiframe_mean f mean_points method deg direction dec).1,
      row.length = n_coef method deg) ∧
    (regress_multiframe_mean f mean_points method deg direction dec).2.1 =
      ((mean_points.enumFrom 0).filter
        (fun p => isLinAlgError (f (applyDecenter dec p.2.2) method deg direction))).map
        Prod.fst ∧
    (∀ i (hi : i < mean_points.length),
      isLinAlgError
          (f (applyDecenter dec (mean_points.get ⟨i, hi⟩).2) method deg direction) = true →
        (regress_multiframe_mean f mean_points method deg direction dec).1.get? i =
          some (List.replicate (n_coef method deg) none) ∧
        i ∈ (regress_multiframe_mean f mean_points method deg direction dec).2.1) := by
  have hrows := rmLoop_rows f method deg direction dec 0 mean_points
  have hwarns := rmLoop_warns f method deg direction dec 0 mean_points
  refine ⟨hrows, ?_, hwarns, ?_⟩
  · intro row hrow
    rw [regress_multiframe_mean, hrows] at hrow
    obtain ⟨pr, _, hpr⟩ := List.mem_map.mp hrow
    rw [← hpr, frameResult]
    cases hfit : f (applyDecenter dec pr.2) method deg direction with
    | ok v => simp [hlen _ _ hfit]
    | error e => simp
  · intro i hi herr
    constructor
    · rw [regress_multiframe_mean, hrows, List.get?_map]
      rw [List.get?_eq_get hi]
      simp only [Option.map_some']
      rw [frameResult]
      revert herr
      cases hfit : f (applyDecenter dec (mean_points.get ⟨i, hi⟩).2) method deg direction with
      | ok v => intro herr; exact absurd herr (by simp [isLinAlgError])
      | error e => intro _; rfl
    · rw [regress_multiframe_mean, hwarns]
      refine List.mem_map.mpr ⟨(i, mean_points.get ⟨i, hi⟩), ?_, rfl⟩
      refine List.mem_filter.mpr ⟨?_, ?_⟩
      · have hget : (mean_points.enumFrom 0).get? i =
            some (i, mean_points.get ⟨i, hi⟩) := by
          rw [List.enumFrom_get?]
          rw [List.get?_eq_get hi]
          simp
        exact List.get?_mem hget
      · simpa using herr

/-- Witness fitter for C3: a fitter for the `"linear"` mode that raises a
linear-algebra error on frames with fewer than 2 points, per the spec of
`regress_frame_mean`. -/
def witnessFitter : Fitter := fun pts _ _ _ =>
  if pts.length < 2 then .error () else .ok [0, 0]

/-- Witness for C3: a two-frame batch where frame 0 has two points and frame 1
a single point; frame 1 gets the NaN row and the warning, frame 0 is fitted. -/
theorem regress_multiframe_mean_isolates_failures_witness :
    (∀ pts v, witnessFitter pts "linear" 1 "either" = .ok v →
      v.length = n_coef "linear" 1) ∧
    (isLinAlgError
        (witnessFitter
          (applyDecenter none
            (([(0, [⟨1, 1, 1⟩, ⟨2, 2, 2⟩]), (1, [⟨1, 1, 1⟩])] :
              List (ℕ × PlumePts)).get ⟨1, by norm_num⟩).2) "linear" 1 "either") = true) ∧
    (regress_multiframe_mean witnessFitter
        [(0, [⟨1, 1, 1⟩, ⟨2, 2, 2⟩]), (1, [⟨1, 1, 1⟩])] "linear" 1 "either" none).1.get? 1 =
      some (List.replicate (n_coef "linear" 1) none) ∧
    1 ∈ (regress_multiframe_mean witnessFitter
        [(0, [⟨1, 1, 1⟩, ⟨2, 2, 2⟩]), (1, [⟨1, 1, 1⟩])] "linear" 1 "either" none).2.1 := by
  have hlen : ∀ pts v, witnessFitter pts "linear" 1 "either" = .ok v →
      v.length = n_coef "linear" 1 := by
    intro pts v h
    by_cases hc : pts.length < 2
    · rw [witnessFitter] at h
      rw [if_pos hc] at h
      exact absurd h (by simp)
    · rw [witnessFitter] at h
      rw [if_neg hc] at h
      simp only [Except.ok.injEq] at h
      rw [← h, n_coef]
      rfl
  have herr : isLinAlgError
      (witnessFitter
        (applyDecenter none
          (([(0, [⟨1, 1, 1⟩, ⟨2, 2, 2⟩]), (1, [⟨1, 1, 1⟩])] :
            List (ℕ × PlumePts)).get ⟨1, by norm_num⟩).2) "linear" 1 "either") = true := by
    rfl
  obtain ⟨-, -, -, hmain⟩ :=
    regress_multiframe_mean_isolates_failures witnessFitter "linear" 1 "either" none
      [(0, [⟨1, 1, 1⟩, ⟨2, 2, 2⟩]), (1, [⟨1, 1, 1⟩])] hlen
  obtain ⟨hrow, hwarn⟩ := hmain 1 (by norm_num) herr
  exact ⟨hlen, herr, hrow, hwarn⟩

/-- C5: fitting with a `decenter` offset is the same as pre-subtracting that
offset from every frame's `(x, y)` columns and fitting without `decenter`:
the returned coefficient arrays are identical, for every fitter, mode,
degree and offset. -/
theorem regress_multiframe_mean_decenter_pre_subtract (f : Fitter) (method : String)
    (deg : ℕ) (direction : String) (dx dy : ℝ) (mean_points : List (ℕ × PlumePts)) :
    (regress_multiframe_mean f mean_points method deg direction (some (dx, dy))).1 =
      (regress_multiframe_mean f
        (mean_points.map (fun pr => (pr.1, pr.2.map (subDecenter (dx, dy)))))
        method deg direction none).1 := by
  rw [regress_multiframe_mean, regress_multiframe_mean, rmLoop_rows, rmLoop_rows]
  rw [List.map_map]
  apply List.map_congr_left
  intro pr _
  rfl

/-- C6: `regress_multiframe_mean` never mutates its input point arrays: after
the call, the caller's list of `(frame, points)` pairs holds exactly the
values it held before, for every argument combination (including a non-`none`
`decenter`). -/
theorem regress_multiframe_mean_no_mutation (f : Fitter) (method : String)
    (deg : ℕ) (direction : String) (dec : Option (ℝ × ℝ))
    (mean_points : List (ℕ × PlumePts)) :
    (regress_multiframe_mean f mean_points method deg direction dec).2.2 =
      mean_points :=
  rmLoop_inputs f method deg direction dec 0 mean_points

/-!
## Ring search (src/models.py): `PLUME.find_max_on_boundary`,
`PLUME.find_next_center` and the `concentric_circle` ring loop

Images are `n × d` grids of integer intensities; `np.argwhere` masks list
`(row, col)` pairs in row-major (C) order; centers are given as `(col, row)`.
-/

/-- `np.isclose(a, b, rtol, atol)`: `|a - b| ≤ atol + rtol·|b|`. -/
def npIsClose (a b rtol atol : ℝ) : Prop := |a - b| ≤ atol + rtol * |b|

/-- Row-major (C-order) enumeration of the `n × d` pixel grid. -/
def rowMajor (n d : ℕ) : List (ℕ × ℕ) :=
  (List.range n).flatMap (fun i => (List.range d).map (fun j => (i, j)))

/-- Distance of pixel `(i, j)` (row `i`, column `j`) to a center `(col, row)`,
as computed from the meshgrid in the source:
`np.sqrt((xx - col)**2 + (yy - row)**2)`. -/
noncomputable def pixelDist (center : ℝ × ℝ) (p : ℕ × ℕ) : ℝ :=
  Real.sqrt (((p.2 : ℝ) - center.1) ^ 2 + ((p.1 : ℝ) - center.2) ^ 2)

/-- The boundary mask `np.isclose(distances, r, rtol=rtol, atol=atol)`. -/
noncomputable def onBoundary (center : ℝ × ℝ) (r rtol atol : ℝ) (p : ℕ × ℕ) : Prop :=
  npIsClose (pixelDist center p) r rtol atol

/-- `np.isclose(array, max_value)` with NumPy's default tolerances
`rtol = 1e-5`, `atol = 1e-8`, on integer intensities. -/
def intensityClose (a m : ℕ) : Prop :=
  npIsClose (a : ℝ) (m : ℝ) (1 / 10 ^ 5) (1 / 10 ^ 8)

/-- On 8-bit intensities, `np.isclose` with default tolerances is equality. -/
theorem intensityClose_iff_eq {a b : ℕ} (ha : a ≤ 255) (hb : b ≤ 255) :
    intensityClose a b ↔ a = b := by
  constructor
  · intro h
    rw [intensityClose, npIsClose] at h
    have hb' : (b : ℝ) ≤ 255 := by exact_mod_cast hb
    have hbabs : |(b : ℝ)| = (b : ℝ) := abs_of_nonneg (by positivity)
    rw [hbabs] at h
    have habs : |(a : ℝ) - b| < 1 := by nlinarith
    have h1 : (a : ℝ) - b < 1 := (abs_lt.mp habs).2
    have h2 : -(1 : ℝ) < (a : ℝ) - b := (abs_lt.mp habs).1
    have ha1 : a < b + 1 := by exact_mod_cast show (a : ℝ) < b + 1 by linarith
    have ha2 : b < a + 1 := by exact_mod_cast show (b : ℝ) < a + 1 by linarith
    omega
  · intro h
    rw [h, intensityClose, npIsClose, sub_self, abs_zero]
    positivity

open Classical in
/-- Embedding of `PLUME.find_max_on_boundary` (src/models.py, lines 348-374):
maximum intensity over the tolerance ring around `center`, together with the
`(col, row)` coordinates of the first pixel (row-major) whose intensity is
`np.isclose` to that maximum and which lies on the ring.  `np.max` of an
empty subset raises, modelled as `none`. -/
noncomputable def find_max_on_boundary (array : ℕ → ℕ → ℕ) (n d : ℕ)
    (center : ℝ × ℝ) (r rtol atol : ℝ) : Option (ℕ × (ℕ × ℕ)) :=
  let coords := rowMajor n d
  let boundary := coords.filter (fun p => onBoundary center r rtol atol p)
  ((boundary.map (fun p => array p.1 p.2)).max?).bind (fun m =>
    (coords.find? (fun p =>
      intensityClose (array p.1 p.2) m ∧ onBoundary center r rtol atol p)).map
      (fun p => (m, (p.2, p.1))))

open Classical in
/-- Embedding of `PLUME.find_next_center` (src/models.py, lines 301-346):
like `find_max_on_boundary`, but the search set is additionally restricted
to pixels within distance `r·scale` of the previous accepted point. -/
noncomputable def find_next_center (array : ℕ → ℕ → ℕ) (n d : ℕ)
    (orig_center neig_center : ℝ × ℝ) (r scale rtol atol : ℝ) :
    Option (ℕ × (ℕ × ℕ)) :=
  let coords := rowMajor n d
  let search := coords.filter (fun p =>
    onBoundary orig_center r rtol atol p ∧ pixelDist neig_center p ≤ r * scale)
  ((search.map (fun p => array p.1 p.2)).max?).bind (fun m =>
    (coords.find? (fun p => intensityClose (array p.1 p.2) m ∧
      onBoundary orig_center r rtol atol p ∧
      pixelDist neig_center p ≤ r * scale)).map (fun p => (m, (p.2, p.1))))

/-- `List.find?` returns the first element satisfying the predicate. -/
theorem find?_first {α : Type} (p : α → Bool) (l : List α) (a : α)
    (h : l.find? p = some a) :
    ∃ l1 l2, l = l1 ++ a :: l2 ∧ p a = true ∧ ∀ x ∈ l1, p x = false := by
  induction l with
  | nil => exact absurd h (by simp)
  | cons hd tl ih =>
    by_cases hp : p hd
    · rw [List.find?_cons_of_pos _ hp] at h
      obtain rfl := Option.some.injEq _ _ ▸ h
      exact ⟨[], tl, rfl, hp, by simp⟩
    · rw [List.find?_cons_of_neg _ hp] at h
      obtain ⟨l1, l2, heq, hpa, hall⟩ := ih h
      refine ⟨hd :: l1, l2, by rw [heq]; rfl, hpa, ?_⟩
      intro x hx
      rcases List.mem_cons.mp hx with rfl | hx
      · exact Bool.eq_false_iff.mpr hp
      · exact hall x hx

/-- C8: whenever the tolerance ring around `center` contains at least one
pixel of the (8-bit grayscale) intensity array, `find_max_on_boundary`
returns the maximum intensity over the ring pixels together with the
`(col, row)` coordinates of a ring pixel attaining it, and that pixel is
the first maximum-attaining ring pixel in row-major scan order. -/
theorem find_max_on_boundary_spec (array : ℕ → ℕ → ℕ) (n d : ℕ)
    (center : ℝ × ℝ) (r rtol atol : ℝ)
    (hgray : ∀ i j, array i j ≤ 255)
    (hne : ∃ p ∈ rowMajor n d, onBoundary center r rtol atol p) :
    ∃ m i j,
      find_max_on_boundary array n d center r rtol atol = some (m, (j, i)) ∧
      (i, j) ∈ rowMajor n d ∧
      onBoundary center r rtol atol (i, j) ∧
      array i j = m ∧
      (∀ p ∈ rowMajor n d, onBoundary center r rtol atol p → array p.1 p.2 ≤ m) ∧
      (∃ l1 l2, rowMajor n d = l1 ++ (i, j) :: l2 ∧
        ∀ p ∈ l1, ¬(array p.1 p.2 = m ∧ onBoundary center r rtol atol p)) := by
  classical
  set coords := rowMajor n d with hcoords
  set boundary := coords.filter (fun p => onBoundary center r rtol atol p)
    with hboundary
  obtain ⟨p0, hp0mem, hp0b⟩ := hne
  have hp0 : p0 ∈ boundary := by
    rw [hboundary]
    exact List.mem_filter.mpr ⟨hp0mem, by simpa using hp0b⟩
  have hbne : boundary ≠ [] := fun hnil => by rw [hnil] at hp0; exact absurd hp0 (by simp)
  obtain ⟨m, hm⟩ : ∃ m, (boundary.map (fun p => array p.1 p.2)).max? = some m := by
    cases hmax : (boundary.map (fun p => array p.1 p.2)).max? with
    | none =>
      rw [List.max?_eq_none_iff, List.map_eq_nil] at hmax
      exact absurd hmax hbne
    | some m => exact ⟨m, rfl⟩
  have hmle : ∀ b ∈ boundary.map (fun p => array p.1 p.2), b ≤ m :=
    (List.max?_le_iff (fun a b c => Nat.max_le) hm).mp le_rfl
  have hmmem : m ∈ boundary.map (fun p => array p.1 p.2) :=
    List.max?_mem (fun a b => max_choice a b) hm
  obtain ⟨pm, hpmmem, hpmval⟩ := List.mem_map.mp hmmem
  have hm255 : m ≤ 255 := hpmval ▸ hgray pm.1 pm.2
  have hpmcoords : pm ∈ coords := (List.mem_filter.mp hpmmem).1
  have hpmb : onBoundary center r rtol atol pm := by
    have := (List.mem_filter.mp hpmmem).2
    simpa using this
  obtain ⟨pf, hpf⟩ : ∃ pf, coords.find? (fun p =>
      intensityClose (array p.1 p.2) m ∧ onBoundary center r rtol atol p) = some pf := by
    cases hfind : coords.find? (fun p =>
        intensityClose (array p.1 p.2) m ∧ onBoundary center r rtol atol p) with
    | none =>
      exfalso
      have := List.find?_eq_none.mp hfind pm hpmcoords
      apply this
      simp only [decide_eq_true_iff]
      exact ⟨(intensityClose_iff_eq (hgray pm.1 pm.2) hm255).mpr hpmval, hpmb⟩
    | some pf => exact ⟨pf, rfl⟩
  have hpfprop := List.find?_some hpf
  simp only [decide_eq_true_iff] at hpfprop
  obtain ⟨hpfclose, hpfb⟩ := hpfprop
  have hpfval : array pf.1 pf.2 = m :=
    (intensityClose_iff_eq (hgray pf.1 pf.2) hm255).mp hpfclose
  obtain ⟨l1, l2, hsplit, -, hfirst⟩ := find?_first _ _ _ hpf
  refine ⟨m, pf.1, pf.2, ?_, ?_, ?_, hpfval, ?_, l1, l2, ?_, ?_⟩
  · rw [find_max_on_boundary]
    rw [← hcoords, ← hboundary, hm, Option.some_bind, hpf, Option.map_some']
  · exact List.mem_of_find?_eq_some hpf
  · exact hpfb
  · intro p hp hpb
    exact hmle _ (List.mem_map.mpr ⟨p, List.mem_filter.mpr ⟨hp, by simpa using hpb⟩, rfl⟩)
  · rw [← hsplit]
  · intro p hp ⟨hval, hb⟩
    have := hfirst p hp
    rw [decide_eq_false_iff_not] at this
    exact this ⟨(intensityClose_iff_eq (hgray p.1 p.2) hm255).mpr hval, hb⟩

/-- Witness image for C8: the 2×2 grid `[[5, 9], [9, 3]]` (lookup with
default 0). -/
def witnessImage : ℕ → ℕ → ℕ := fun i j => (([[5, 9], [9, 3]].getD i []).getD j 0)

/-- Witness for C8: on the 2×2 image above with center `(0, 0)`, radius 1 and
tolerances `rtol = 0`, `atol = 1/2`, the ring contains the pixels `(0,1)`,
`(1,0)` and `(1,1)`; the maximum 9 is attained at `(0,1)` and `(1,0)` and the
row-major first one, `(0,1)`, is returned. -/
theorem find_max_on_boundary_spec_witness :
    (∀ i j, witnessImage i j ≤ 255) ∧
    ((0, 1) ∈ rowMajor 2 2 ∧ onBoundary (0, 0) 1 0 (1 / 2) (0, 1)) ∧
    (∃ m i j,
      find_max_on_boundary witnessImage 2 2 (0, 0) 1 0 (1 / 2) = some (m, (j, i)) ∧
      (i, j) ∈ rowMajor 2 2 ∧
      onBoundary (0, 0) 1 0 (1 / 2) (i, j) ∧
      witnessImage i j = m ∧
      (∀ p ∈ rowMajor 2 2, onBoundary (0, 0) 1 0 (1 / 2) p →
        witnessImage p.1 p.2 ≤ m) ∧
      (∃ l1 l2, rowMajor 2 2 = l1 ++ (i, j) :: l2 ∧
        ∀ p ∈ l1, ¬(witnessImage p.1 p.2 = m ∧ onBoundary (0, 0) 1 0 (1 / 2) p))) := by
  have hgray : ∀ i j, witnessImage i j ≤ 255 := by
    intro i j
    rcases i with _ | _ | i <;> rcases j with _ | _ | j <;> simp [witnessImage]
  have hb01 : onBoundary (0, 0) 1 0 (1 / 2) (0, 1) := by
    rw [onBoundary, pixelDist, npIsClose]
    norm_num [Real.sqrt_one]
  have hmem : ((0 : ℕ), (1 : ℕ)) ∈ rowMajor 2 2 := by
    rw [rowMajor]
    decide
  exact ⟨hgray, ⟨hmem, hb01⟩,
    find_max_on_boundary_spec witnessImage 2 2 (0, 0) 1 0 (1 / 2) hgray
      ⟨(0, 1), hmem, hb01⟩⟩

/-- The ring loop of `PLUME.concentric_circle` (src/models.py, lines 130-161):
`for step in range(2, num_of_circs + 1)`, run the search `find step center`;
on failure (`except` → `break`) return the accumulated points unchanged;
on success store the found pixel at index `step` and continue.  `fuel` is the
number of remaining steps, `pts` the `points_mean` array (initialized with
zeros by `np.zeros` in the source). -/
def ccSteps (find : ℕ → ℕ × ℕ → Option (ℕ × (ℕ × ℕ))) :
    ℕ → ℕ → ℕ × ℕ → (ℕ → ℝ × ℝ) → (ℕ → ℝ × ℝ)
  | 0, _, _, pts => pts
  | fuel + 1, step, center, pts =>
    match find step center with
    | none => pts
    | some (_, c) =>
      ccSteps find fuel (step + 1) c
        (fun k => if k = step then ((c.1 : ℝ), (c.2 : ℝ)) else pts k)

/-- The search used by the ring loop at ring `step`: `find_next_center` on
radius `radii·step` around the previous accepted pixel. -/
noncomputable def ccFind (array : ℕ → ℕ → ℕ) (n d : ℕ) (orig_center : ℝ × ℝ)
    (radii scale rtol atol : ℝ) : ℕ → ℕ × ℕ → Option (ℕ × (ℕ × ℕ)) :=
  fun step c =>
    find_next_center array n d orig_center ((c.1 : ℝ), (c.2 : ℝ))
      (radii * step) scale rtol atol

/-- The mean-path portion of `PLUME.concentric_circle` (src/models.py,
lines 112-161): `points_mean` starts as zeros with `points_mean[0]` the
origin, ring 1 is found by `find_max_on_boundary` (whose failure raises,
uncaught — modelled as `none`), rings 2..N by the loop above. -/
noncomputable def concentric_circle_mean (array : ℕ → ℕ → ℕ) (n d : ℕ)
    (orig_center : ℝ × ℝ) (radii : ℝ) (num_of_circs : ℕ)
    (scale rtol atol : ℝ) : Option (ℕ → ℝ × ℝ) :=
  match find_max_on_boundary array n d orig_center radii rtol atol with
  | none => none
  | some (_, c1) =>
    some (ccSteps (ccFind array n d orig_center radii scale rtol atol)
      (num_of_circs - 1) 2 c1
      (fun k => if k = 0 then orig_center
        else if k = 1 then ((c1.1 : ℝ), (c1.2 : ℝ)) else (0, 0)))

/-- C7: if the ring search reaches ring `k ≥ 2` with the entries from ring `k`
on still at their initial value and the candidate search for ring `k` fails
(empty candidate set), the loop returns the accumulated mean path unchanged —
entries for ring `k` and every later ring stay at their initial value, no
later entry is ever assigned, and the truncated path is a normal return
value (the loop is a total function). -/
theorem concentric_circle_halts_on_empty_ring (array : ℕ → ℕ → ℕ) (n d : ℕ)
    (orig_center : ℝ × ℝ) (radii scale rtol atol : ℝ) (fuel k : ℕ)
    (center : ℕ × ℕ) (pts : ℕ → ℝ × ℝ) (hk : 2 ≤ k)
    (hfail : find_next_center array n d orig_center
      ((center.1 : ℝ), (center.2 : ℝ)) (radii * k) scale rtol atol = none)
    (hunset : ∀ j, k ≤ j → pts j = (0, 0)) :
    ccSteps (ccFind array n d orig_center radii scale rtol atol) fuel k center pts
      = pts ∧
    ∀ j, k ≤ j →
      ccSteps (ccFind array n d orig_center radii scale rtol atol) fuel k center pts j
        = (0, 0) := by
  have hmain : ccSteps (ccFind array n d orig_center radii scale rtol atol)
      fuel k center pts = pts := by
    cases fuel with
    | zero => rfl
    | succ fuel =>
      rw [ccSteps]
      rw [show ccFind array n d orig_center radii scale rtol atol k center = none
        from hfail]
  exact ⟨hmain, fun j hj => by rw [hmain]; exact hunset j hj⟩

/-- Witness for C7: a 1×1 image where the ring-2 candidate set is empty
(the lone pixel is far from the ring radius 10), so the loop leaves the
mean path untouched. -/
theorem concentric_circle_halts_on_empty_ring_witness :
    (find_next_center (fun _ _ => 7) 1 1 (0, 0)
        (((((0, 0) : ℕ × ℕ)).1 : ℝ), ((((0, 0) : ℕ × ℕ)).2 : ℝ))
        (5 * ((2 : ℕ) : ℝ)) (3 / 5) 0 (1 / 10) = none) ∧
    ccSteps (ccFind (fun _ _ => 7) 1 1 (0, 0) 5 (3 / 5) 0 (1 / 10)) 3 2 (0, 0)
        (fun _ => ((0 : ℝ), (0 : ℝ))) = (fun _ => ((0 : ℝ), (0 : ℝ))) := by
  have hcoords : rowMajor 1 1 = [(0, 0)] := rfl
  have hnotb : ¬ onBoundary ((0, 0) : ℝ × ℝ)
      (5 * ((2 : ℕ) : ℝ)) 0 (1 / 10) (0, 0) := by
    rw [onBoundary, pixelDist, npIsClose]
    push_cast
    rw [show ((0 : ℝ) - 0) ^ 2 + ((0 : ℝ) - 0) ^ 2 = 0 by norm_num, Real.sqrt_zero]
    norm_num
  have hfail : find_next_center (fun _ _ => 7) 1 1 (0, 0)
      (((((0, 0) : ℕ × ℕ)).1 : ℝ), ((((0, 0) : ℕ × ℕ)).2 : ℝ))
      (5 * ((2 : ℕ) : ℝ)) (3 / 5) 0 (1 / 10) = none := by
    rw [find_next_center, hcoords]
    rw [List.filter_cons]
    rw [if_neg (by simp only [decide_eq_true_iff]; exact fun h => hnotb h.1)]
    rfl
  refine ⟨hfail, ?_⟩
  exact (concentric_circle_halts_on_empty_ring (fun _ _ => 7) 1 1 (0, 0) 5 (3 / 5) 0
    (1 / 10) 3 2 (0, 0) (fun _ => ((0 : ℝ), (0 : ℝ))) le_rfl hfail (fun _ _ => rfl)).1

/-!
## `circle_poly_intersection` and `_square_poly_coef`
(rom_plumes/utils.py, lines 92-165)

`np.polynomial.polyroots` is an external numerical routine; it is passed in
as the list of complex roots of the assembled polynomial `F`, with the
root-exactness contract as a hypothesis.  The code keeps the roots with
imaginary part exactly 0 (`np.isreal`) and returns `(x, y(x))` in root
order.
-/

/-- Ascending-order polynomial evaluation (`np.polynomial.Polynomial`). -/
def evalPoly : List ℝ → ℝ → ℝ
  | [], _ => 0
  | c :: cs, x => c + x * evalPoly cs x

/-- The same polynomial evaluated at a complex point. -/
def evalPolyC : List ℝ → ℂ → ℂ
  | [], _ => 0
  | c :: cs, z => (c : ℂ) + z * evalPolyC cs z

/-- `a_i` from `_square_poly_coef`: coefficient `i`, or 0 past the end. -/
def getCoef (coef : List ℝ) (i : ℕ) : ℝ := coef.getD i 0

/-- Embedding of `_square_poly_coef`: the coefficients of `P²` by discrete
self-convolution, `c_k = Σ_{i≤k} a_i·a_{k-i}`, for `k < 2·len - 1`. -/
noncomputable def _square_poly_coef (coef : List ℝ) : List ℝ :=
  (List.range (2 * coef.length - 1)).map (fun k =>
    ∑ i in Finset.range (k + 1), getCoef coef i * getCoef coef (k - i))

/-- `l[i] += v` on a coefficient array. -/
def addAt (l : List ℝ) (i : ℕ) (v : ℝ) : List ℝ := l.set i (l.getD i 0 + v)

/-- `base[:len(extra)] += extra` on coefficient arrays
(`len(extra) ≤ len(base)` in all uses). -/
def addPrefix : List ℝ → List ℝ → List ℝ
  | base, [] => base
  | [], _ => []
  | b :: bs, e :: es => (b + e) :: addPrefix bs es

/-- The coefficient array `F_coef` assembled by `circle_poly_intersection`
for `F(x) = (x - x0)² + (y(x) - y0)² - r²`. -/
noncomputable def circle_poly_intersection_coef (r x0 y0 : ℝ) (poly_coef : List ℝ) :
    List ℝ :=
  if poly_coef.length = 1 then
    [x0 ^ 2 + (y0 - poly_coef.getD 0 0) ^ 2 - r ^ 2, -2 * x0, 1]
  else
    addAt (addAt (addAt
      (addPrefix (_square_poly_coef poly_coef) (poly_coef.map (fun a => -2 * y0 * a)))
      0 (x0 ^ 2 + y0 ^ 2 - r ^ 2)) 1 (-2 * x0)) 2 1

open Classical in
/-- Embedding of `circle_poly_intersection`: given the complex roots `rts`
of `F_coef` (found by `np.polynomial.polyroots`), keep the roots with
imaginary part exactly 0 (`np.isreal`), take their real parts, and return
the `(x, y(x))` pairs in root order. -/
noncomputable def circle_poly_intersection (rts : List ℂ) (r x0 y0 : ℝ)
    (poly_coef : List ℝ) : List (ℝ × ℝ) :=
  ((rts.filter (fun z => z.im = 0)).map Complex.re).map
    (fun x => (x, evalPoly poly_coef x))

theorem evalPoly_eq_sum (a : List ℝ) (x : ℝ) :
    evalPoly a x = ∑ i in Finset.range a.length, a.getD i 0 * x ^ i := by
  induction a with
  | nil => simp [evalPoly]
  | cons c cs ih =>
    rw [evalPoly, ih, List.length_cons, Finset.sum_range_succ']
    simp only [List.getD_cons_succ, List.getD_cons_zero, pow_zero, mul_one]
    rw [Finset.mul_sum, add_comm (c : ℝ)]
    congr 1
    apply Finset.sum_congr rfl
    intro i _
    ring

/-- The polynomial with ascending coefficient list `a`. -/
noncomputable def toPoly (a : List ℝ) : Polynomial ℝ :=
  ∑ i in Finset.range a.length, Polynomial.C (a.getD i 0) * Polynomial.X ^ i

theorem coeff_toPoly (a : List ℝ) (k : ℕ) : (toPoly a).coeff k = a.getD k 0 := by
  rw [toPoly, Polynomial.finset_sum_coeff]
  simp only [Polynomial.coeff_C_mul, Polynomial.coeff_X_pow]
  by_cases hk : k < a.length
  · rw [Finset.sum_eq_single k]
    · simp
    · intro b _ hbk
      simp [Ne.symm hbk]
    · intro habs
      exact absurd (Finset.mem_range.mpr hk) habs
  · rw [List.getD_eq_default _ _ (not_lt.mp hk)]
    apply Finset.sum_eq_zero
    intro i hi
    have : k ≠ i := fun h => hk (h ▸ Finset.mem_range.mp hi)
    simp [this]

theorem eval_toPoly (a : List ℝ) (x : ℝ) : (toPoly a).eval x = evalPoly a x := by
  rw [toPoly, Polynomial.eval_finset_sum, evalPoly_eq_sum]
  apply Finset.sum_congr rfl
  intro i _
  simp

theorem getD_map_range (M : ℕ) (f : ℕ → ℝ) (k : ℕ) :
    ((List.range M).map f).getD k 0 = if k < M then f k else 0 := by
  by_cases hk : k < M
  · rw [List.getD_eq_getElem?_getD, List.getElem?_map, List.getElem?_range hk]
    simp [hk]
  · rw [List.getD_eq_default, if_neg hk]
    simpa using not_lt.mp hk

/-- The discrete self-convolution computes the square of the polynomial. -/
theorem toPoly_square (a : List ℝ) (ha : a ≠ []) :
    toPoly (_square_poly_coef a) = toPoly a * toPoly a := by
  have hL : 1 ≤ a.length := List.length_pos.mpr ha
  apply Polynomial.ext
  intro k
  rw [coeff_toPoly, Polynomial.coeff_mul,
    Finset.Nat.sum_antidiagonal_eq_sum_range_succ_mk]
  simp only [coeff_toPoly]
  rw [_square_poly_coef, getD_map_range]
  by_cases hk : k < 2 * a.length - 1
  · rw [if_pos hk]
    apply Finset.sum_congr rfl
    intro i _
    rw [getCoef, getCoef]
  · rw [if_neg hk]
    symm
    apply Finset.sum_eq_zero
    intro i hi
    have hik : i ≤ k := Nat.lt_succ_iff.mp (Finset.mem_range.mp hi)
    by_cases hilen : i < a.length
    · have : a.length ≤ k - i := by omega
      rw [List.getD_eq_default _ _ this, mul_zero]
    · rw [List.getD_eq_default _ _ (not_lt.mp hilen), zero_mul]

theorem evalPoly_square (a : List ℝ) (ha : a ≠ []) (x : ℝ) :
    evalPoly (_square_poly_coef a) x = evalPoly a x ^ 2 := by
  rw [← eval_toPoly, toPoly_square a ha, Polynomial.eval_mul, eval_toPoly, sq]

theorem evalPoly_addPrefix (b e : List ℝ) (he : e.length ≤ b.length) (x : ℝ) :
    evalPoly (addPrefix b e) x = evalPoly b x + evalPoly e x := by
  induction b generalizing e with
  | nil =>
    rw [List.length_nil, Nat.le_zero, List.length_eq_zero] at he
    rw [he, addPrefix, evalPoly]
    ring
  | cons c cs ih =>
    cases e with
    | nil => rw [addPrefix, evalPoly]; ring
    | cons d ds =>
      rw [addPrefix, evalPoly, evalPoly, evalPoly, ih ds (by simpa using he)]
      ring

theorem evalPoly_addAt (l : List ℝ) (i : ℕ) (v : ℝ) (hi : i < l.length) (x : ℝ) :
    evalPoly (addAt l i v) x = evalPoly l x + v * x ^ i := by
  induction l generalizing i with
  | nil => exact absurd hi (by simp)
  | cons c cs ih =>
    cases i with
    | zero =>
      rw [addAt, List.getD_cons_zero, List.set]
      rw [evalPoly, evalPoly]
      ring
    | succ i =>
      rw [addAt, List.getD_cons_succ, List.set]
      rw [evalPoly, evalPoly]
      have := ih i (by simpa using hi)
      rw [addAt] at this
      rw [this]
      ring

theorem evalPoly_map_mul (c : ℝ) (a : List ℝ) (x : ℝ) :
    evalPoly (a.map (fun t => c * t)) x = c * evalPoly a x := by
  induction a with
  | nil => simp [evalPoly]
  | cons d ds ih =>
    rw [List.map_cons, evalPoly, evalPoly, ih]
    ring

theorem length_addPrefix (b e : List ℝ) : (addPrefix b e).length = b.length := by
  induction b generalizing e with
  | nil => cases e <;> rfl
  | cons c cs ih =>
    cases e with
    | nil => rfl
    | cons d ds => rw [addPrefix, List.length_cons, List.length_cons, ih]

/-- The assembled coefficient array evaluates to
`F(x) = (x - x0)² + (y(x) - y0)² - r²`. -/
theorem evalPoly_F (r x0 y0 : ℝ) (a : List ℝ) (ha : a ≠ []) (x : ℝ) :
    evalPoly (circle_poly_intersection_coef r x0 y0 a) x =
      (x - x0) ^ 2 + (evalPoly a x - y0) ^ 2 - r ^ 2 := by
  have hL : 1 ≤ a.length := List.length_pos.mpr ha
  rw [circle_poly_intersection_coef]
  by_cases h1 : a.length = 1
  · rw [if_pos h1]
    obtain ⟨a0, rfl⟩ := List.length_eq_one.mp h1
    simp only [evalPoly, List.getD_cons_zero]
    ring
  · rw [if_neg h1]
    have hL2 : 2 ≤ a.length := by omega
    have hsq : 3 ≤ (_square_poly_coef a).length := by
      rw [_square_poly_coef, List.length_map, List.length_range]
      omega
    have hmaplen : (a.map (fun t => -2 * y0 * t)).length ≤ (_square_poly_coef a).length := by
      rw [List.length_map, _square_poly_coef, List.length_map, List.length_range]
      omega
    have hlen0 : (addPrefix (_square_poly_coef a) (a.map (fun t => -2 * y0 * t))).length =
        (_square_poly_coef a).length := length_addPrefix _ _
    rw [evalPoly_addAt _ 2 1 (by
      rw [addAt, addAt, List.length_set, List.length_set, hlen0]; omega)]
    rw [evalPoly_addAt _ 1 (-2 * x0) (by
      rw [addAt, List.length_set, hlen0]; omega)]
    rw [evalPoly_addAt _ 0 (x0 ^ 2 + y0 ^ 2 - r ^ 2) (by rw [hlen0]; omega)]
    rw [evalPoly_addPrefix _ _ hmaplen, evalPoly_square a ha, evalPoly_map_mul]
    ring

theorem evalPolyC_ofReal (a : List ℝ) (x : ℝ) :
    evalPolyC a ((x : ℝ) : ℂ) = ((evalPoly a x : ℝ) : ℂ) := by
  induction a with
  | nil => simp [evalPoly, evalPolyC]
  | cons c cs ih =>
    rw [evalPolyC, evalPoly, ih]
    push_cast
    ring

/-- C9: given the complex roots of the assembled degree-`2n` polynomial
`F(x) = (x - x0)² + (y(x) - y0)² - r²` (whose squared-polynomial part is the
discrete self-convolution `c_k = Σ a_i·a_{k-i}`), `circle_poly_intersection`
returns exactly the pairs `(x, y(x))` with `x` a real root of `F`, in root
order; every returned point lies on the polynomial curve and on the circle. -/
theorem circle_poly_intersection_spec (r x0 y0 : ℝ) (a : List ℝ) (rts : List ℂ)
    (ha : a ≠ [])
    (hrts : ∀ z : ℂ, z ∈ rts ↔
      evalPolyC (circle_poly_intersection_coef r x0 y0 a) z = 0) :
    (∀ p ∈ circle_poly_intersection rts r x0 y0 a,
      p.2 = evalPoly a p.1 ∧ (p.1 - x0) ^ 2 + (p.2 - y0) ^ 2 = r ^ 2) ∧
    (∀ x : ℝ, ((x - x0) ^ 2 + (evalPoly a x - y0) ^ 2 = r ^ 2 ↔
      x ∈ (circle_poly_intersection rts r x0 y0 a).map Prod.fst)) ∧
    circle_poly_intersection rts r x0 y0 a =
      ((rts.filter (fun z => z.im = 0)).map Complex.re).map
        (fun x => (x, evalPoly a x)) := by
  classical
  have hroot_iff : ∀ x : ℝ,
      ((x - x0) ^ 2 + (evalPoly a x - y0) ^ 2 = r ^ 2 ↔
        x ∈ (rts.filter (fun z => z.im = 0)).map Complex.re) := by
    intro x
    constructor
    · intro hcirc
      have hF : evalPoly (circle_poly_intersection_coef r x0 y0 a) x = 0 := by
        rw [evalPoly_F r x0 y0 a ha x, hcirc]
        ring
      have hFC : evalPolyC (circle_poly_intersection_coef r x0 y0 a) ((x : ℝ) : ℂ) = 0 := by
        rw [evalPolyC_ofReal, hF]
        exact Complex.ofReal_zero
      refine List.mem_map.mpr ⟨((x : ℝ) : ℂ), ?_, Complex.ofReal_re x⟩
      exact List.mem_filter.mpr ⟨(hrts _).mpr hFC, by simp⟩
    · intro hmem
      obtain ⟨z, hzmem, hzre⟩ := List.mem_map.mp hmem
      have hzim : z.im = 0 := by
        have := (List.mem_filter.mp hzmem).2
        simpa using this
      have hz : z = ((x : ℝ) : ℂ) := by
        apply Complex.ext
        · rw [hzre, Complex.ofReal_re]
        · rw [hzim, Complex.ofReal_im]
      have hzrts : z ∈ rts := (List.mem_filter.mp hzmem).1
      have hFC := (hrts z).mp hzrts
      rw [hz, evalPolyC_ofReal, Complex.ofReal_eq_zero] at hFC
      rw [evalPoly_F r x0 y0 a ha x] at hFC
      linarith
  refine ⟨?_, ?_, rfl⟩
  · intro p hp
    obtain ⟨x, hx, hpx⟩ := List.mem_map.mp hp
    have hxroot : (x - x0) ^ 2 + (evalPoly a x - y0) ^ 2 = r ^ 2 :=
      (hroot_iff x).mpr hx
    rw [← hpx]
    exact ⟨rfl, hxroot⟩
  · intro x
    rw [hroot_iff x]
    rw [circle_poly_intersection, List.map_map]
    constructor
    · intro hx
      exact List.mem_map.mpr ⟨x, hx, rfl⟩
    · intro hx
      obtain ⟨y, hy, hyx⟩ := List.mem_map.mp hx
      have : y = x := hyx
      exact this ▸ hy

/-- Witness for C9: the constant polynomial `y = 0` and the unit circle at
the origin; `F(x) = x² - 1`, with complex roots `{1, -1}`, giving the
intersection points `(1, 0)` and `(-1, 0)`. -/
theorem circle_poly_intersection_spec_witness :
    ([(0 : ℝ)] ≠ ([] : List ℝ)) ∧
    (∀ z : ℂ, z ∈ [(1 : ℂ), -1] ↔
      evalPolyC (circle_poly_intersection_coef 1 0 0 [(0 : ℝ)]) z = 0) ∧
    (∀ p ∈ circle_poly_intersection [(1 : ℂ), -1] 1 0 0 [(0 : ℝ)],
      p.2 = evalPoly [(0 : ℝ)] p.1 ∧ (p.1 - 0) ^ 2 + (p.2 - 0) ^ 2 = 1 ^ 2) := by
  have hne : [(0 : ℝ)] ≠ ([] : List ℝ) := by simp
  have hF : ∀ z : ℂ, evalPolyC (circle_poly_intersection_coef 1 0 0 [(0 : ℝ)]) z =
      z ^ 2 - 1 := by
    intro z
    rw [circle_poly_intersection_coef,
      if_pos (show ([(0 : ℝ)].length = 1) from rfl)]
    simp only [evalPolyC, List.getD_cons_zero]
    push_cast
    ring
  have hrts : ∀ z : ℂ, z ∈ [(1 : ℂ), -1] ↔
      evalPolyC (circle_poly_intersection_coef 1 0 0 [(0 : ℝ)]) z = 0 := by
    intro z
    rw [hF z]
    constructor
    · intro hz
      rcases List.mem_cons.mp hz with rfl | hz
      · ring
      · rcases List.mem_cons.mp hz with rfl | hz
        · ring
        · exact absurd hz (by simp)
    · intro hz
      have hfactor : (z - 1) * (z + 1) = 0 := by
        linear_combination hz
      rcases mul_eq_zero.mp hfactor with h | h
      · have : z = 1 := by linear_combination h
        simp [this]
      · have : z = -1 := by linear_combination h
        simp [this]
  exact ⟨hne, hrts,
    (circle_poly_intersection_spec 1 0 0 [(0 : ℝ)] [(1 : ℂ), -1] hne hrts).1⟩

/-!
## `flatten_edge_points` and `_create_radius_pairs`
(rom_plumes/models.py, lines 778-807)
-/

open Classical in
/-- `np.where(np.isclose(curve_1_pts[:, 0], r))` followed by taking index
`[0]`: the first mean point (array order) whose radius is `np.isclose`
(default tolerances) to `r`, or `none` when the mask is empty. -/
noncomputable def firstCloseMean : List PlumePt → ℝ → Option PlumePt
  | [], _ => none
  | q :: qs, r =>
    if npIsClose q.r r (1 / 10 ^ 5) (1 / 10 ^ 8) then some q
    else firstCloseMean qs r

/-- Embedding of `_create_radius_pairs`: for each `(r, x, y)` of the second
curve, pair it with the first same-radius point of the first curve; points
with no partner are thrown out. -/
noncomputable def _create_radius_pairs (curve_1_pts curve_2_pts : List PlumePt) :
    List (ℝ × (ℝ × ℝ) × (ℝ × ℝ)) :=
  curve_2_pts.filterMap (fun p =>
    (firstCloseMean curve_1_pts p.r).map (fun q => (p.r, (q.x, q.y), (p.x, p.y))))

/-- Embedding of `flatten_edge_points`: one `(radius, distance)` row per
created pair, in order, with `np.linalg.norm(center - edge)` as distance. -/
noncomputable def flatten_edge_points (mean_points vari_points : List PlumePt) :
    List (ℝ × ℝ) :=
  (_create_radius_pairs mean_points vari_points).map (fun t =>
    (t.1, Real.sqrt ((t.2.1.1 - t.2.2.1) ^ 2 + (t.2.1.2 - t.2.2.2) ^ 2)))

theorem firstCloseMean_eq_none_iff (m : List PlumePt) (r : ℝ) :
    firstCloseMean m r = none ↔
      ∀ q ∈ m, ¬ npIsClose q.r r (1 / 10 ^ 5) (1 / 10 ^ 8) := by
  induction m with
  | nil => simp [firstCloseMean]
  | cons q qs ih =>
    rw [firstCloseMean]
    by_cases hq : npIsClose q.r r (1 / 10 ^ 5) (1 / 10 ^ 8)
    · rw [if_pos hq]
      simp only [List.mem_cons]
      constructor
      · intro h
        exact absurd h (by simp)
      · intro h
        exact absurd hq (h q (Or.inl rfl))
    · rw [if_neg hq, ih]
      simp only [List.mem_cons]
      constructor
      · rintro h p (rfl | hp)
        · exact hq
        · exact h p hp
      · intro h p hp
        exact h p (Or.inr hp)

theorem firstCloseMean_eq_some (m : List PlumePt) (r : ℝ) (q : PlumePt)
    (h : firstCloseMean m r = some q) :
    q ∈ m ∧ npIsClose q.r r (1 / 10 ^ 5) (1 / 10 ^ 8) ∧
      ∃ l1 l2, m = l1 ++ q :: l2 ∧
        ∀ p ∈ l1, ¬ npIsClose p.r r (1 / 10 ^ 5) (1 / 10 ^ 8) := by
  induction m with
  | nil => exact absurd h (by simp [firstCloseMean])
  | cons a as ih =>
    rw [firstCloseMean] at h
    by_cases ha : npIsClose a.r r (1 / 10 ^ 5) (1 / 10 ^ 8)
    · rw [if_pos ha] at h
      obtain rfl : a = q := by simpa using h
      exact ⟨List.mem_cons_self a as, ha, [], as, rfl, by simp⟩
    · rw [if_neg ha] at h
      obtain ⟨hmem, hclose, l1, l2, hsplit, hfirst⟩ := ih h
      refine ⟨List.mem_cons_of_mem a hmem, hclose, a :: l1, l2, by rw [hsplit]; rfl, ?_⟩
      intro p hp
      rcases List.mem_cons.mp hp with rfl | hp'
      · exact ha
      · exact hfirst p hp'

/-- C10: `flatten_edge_points` returns one `(radius, distance)` row per edge
point whose radius is `np.isclose` to the radius of at least one mean point,
in edge-point order, with the distance taken to the first matching mean
point in array order; edge points with no matching mean point are silently
dropped. -/
theorem flatten_edge_points_spec (mean_points vari_points : List PlumePt) :
    flatten_edge_points mean_points vari_points =
      vari_points.filterMap (fun p =>
        (firstCloseMean mean_points p.r).map (fun q =>
          (p.r, Real.sqrt ((q.x - p.x) ^ 2 + (q.y - p.y) ^ 2)))) ∧
    (∀ r : ℝ, firstCloseMean mean_points r = none ↔
      ∀ q ∈ mean_points, ¬ npIsClose q.r r (1 / 10 ^ 5) (1 / 10 ^ 8)) ∧
    (∀ (r : ℝ) (q : PlumePt), firstCloseMean mean_points r = some q →
      q ∈ mean_points ∧ npIsClose q.r r (1 / 10 ^ 5) (1 / 10 ^ 8) ∧
      ∃ l1 l2, mean_points = l1 ++ q :: l2 ∧
        ∀ p ∈ l1, ¬ npIsClose p.r r (1 / 10 ^ 5) (1 / 10 ^ 8)) := by
  refine ⟨?_, fun r => firstCloseMean_eq_none_iff mean_points r,
    fun r q h => firstCloseMean_eq_some mean_points r q h⟩
  rw [flatten_edge_points, _create_radius_pairs, List.map_filterMap]
  apply List.filterMap_congr
  intro p _
  rw [Option.map_map]
  rfl

/-- Witness for C10: one mean point of radius 1 at the origin; the edge point
`(1, 1, 0)` matches it and yields the row `(1, 1)`, while the edge point of
radius 5 matches nothing and is dropped. -/
theorem flatten_edge_points_spec_witness :
    flatten_edge_points [⟨1, 0, 0⟩] [⟨1, 1, 0⟩, ⟨5, 9, 9⟩] = [(1, 1)] := by
  have hclose : npIsClose (PlumePt.mk 1 0 0).r (PlumePt.mk 1 1 0).r
      (1 / 10 ^ 5) (1 / 10 ^ 8) := by
    rw [npIsClose]
    norm_num
  have hfar : ¬ npIsClose (PlumePt.mk 1 0 0).r (PlumePt.mk 5 9 9).r
      (1 / 10 ^ 5) (1 / 10 ^ 8) := by
    rw [npIsClose]
    rw [show |(1 : ℝ) - 5| = 4 by rw [abs_of_nonpos] <;> norm_num]
    rw [show |(5 : ℝ)| = 5 by rw [abs_of_nonneg] <;> norm_num]
    norm_num
  rw [(flatten_edge_points_spec [⟨1, 0, 0⟩] [⟨1, 1, 0⟩, ⟨5, 9, 9⟩]).1]
  rw [List.filterMap_cons, List.filterMap_cons, List.filterMap_nil]
  rw [show firstCloseMean [⟨1, 0, 0⟩] (PlumePt.mk 1 1 0).r = some ⟨1, 0, 0⟩ by
    rw [firstCloseMean, if_pos hclose]]
  rw [show firstCloseMean [⟨1, 0, 0⟩] (PlumePt.mk 5 9 9).r = none by
    rw [firstCloseMean, if_neg hfar]; rfl]
  simp only [Option.map_some', Option.map_none']
  rw [show ((PlumePt.mk 1 0 0).x - (PlumePt.mk 1 1 0).x) ^ 2 +
      ((PlumePt.mk 1 0 0).y - (PlumePt.mk 1 1 0).y) ^ 2 = 1 by norm_num]
  rw [Real.sqrt_one]

end RomPlumes
